import Mathlib

/-!
Verification of the retrieval-augmented chat backend (`pages/api/chat.ts` and
its sibling handler variant).  The definitions below are a shallow embedding of
the handler's pure logic: the token-budget selection loop over conversation
turns, the URL-keyed deduplication of retrieved matches, the conditional
summarization decision, the sequential stage structure of the handler (to
reason about failure ordering and codec release), the recursive
stream-forwarding loop, the temperature defaulting, and the arguments passed to
the prompt template.  External collaborators (the tiktoken codec, the embedding
and generation oracles, the vector index) are modelled as parameters.
-/

set_option maxHeartbeats 1000000

namespace ChatbotUI

/-- A conversation turn, as in `@/types/chat`: a role and a content string. -/
structure Message where
  role : String
  content : String
deriving DecidableEq, Repr

/-- The body of the budget selection loop in the handler:

```js
for (let i = messages.length - 1; i >= 0; i--) {
  const message = messages[i];
  const tokens = encoding.encode(message.content);
  if (tokenCount + tokens.length + 1000 > model.tokenLimit) { break; }
  tokenCount += tokens.length;
  conversationHistory = [message, ...conversationHistory];
}
```

`allocGo` processes the reversed message list (newest turn first); prepending
each admitted turn is rendered as appending at the recursion's return, which
yields the same oldest-first admitted list.  `count s` stands for
`encoding.encode(s).length`. -/
def allocGo (count : String → Nat) (tokenLimit : Nat) :
    List Message → Nat → Nat × List Message
  | [], tokenCount => (tokenCount, [])
  | message :: rest, tokenCount =>
    let tokens := count message.content
    if tokenCount + tokens + 1000 > tokenLimit then
      (tokenCount, [])
    else
      let r := allocGo count tokenLimit rest (tokenCount + tokens)
      (r.1, r.2 ++ [message])

/-- The budget allocator: starting from `tokenCount = prompt_tokens.length`,
walk the history newest→oldest and admit turns while the budget check passes.
Returns the final `tokenCount` and the admitted turns in chronological
(oldest-first) order. -/
def budgetSelect (count : String → Nat) (tokenLimit : Nat)
    (messages : List Message) (promptTokens : Nat) : Nat × List Message :=
  allocGo count tokenLimit messages.reverse promptTokens

theorem allocGo_cons_pos (count : String → Nat) (tokenLimit : Nat)
    (message : Message) (rest : List Message) (tc : Nat)
    (h : tc + count message.content + 1000 > tokenLimit) :
    allocGo count tokenLimit (message :: rest) tc = (tc, []) := by
  simp only [allocGo, if_pos h]

theorem allocGo_cons_neg (count : String → Nat) (tokenLimit : Nat)
    (message : Message) (rest : List Message) (tc : Nat)
    (h : ¬ tc + count message.content + 1000 > tokenLimit) :
    allocGo count tokenLimit (message :: rest) tc =
      ((allocGo count tokenLimit rest (tc + count message.content)).1,
       (allocGo count tokenLimit rest (tc + count message.content)).2 ++ [message]) := by
  simp only [allocGo, if_neg h]

/-- Full characterization of one run of the selection loop over a (reversed,
newest-first) turn list `l`: some prefix of length `k` of `l` is admitted (in
reverse, i.e. chronological, order), the final count is the initial count plus
the admitted turns' token counts, and if the walk stopped before exhausting
`l` then the very next turn fails the budget check at the final count. -/
theorem allocGo_spec (count : String → Nat) (tokenLimit : Nat) :
    ∀ (l : List Message) (tc : Nat),
      ∃ k, k ≤ l.length ∧
        (allocGo count tokenLimit l tc).2 = (l.take k).reverse ∧
        (allocGo count tokenLimit l tc).1 =
          tc + ((l.take k).map (fun m => count m.content)).sum ∧
        (∀ m t, l.drop k = m :: t →
          (allocGo count tokenLimit l tc).1 + count m.content + 1000 > tokenLimit) := by
  intro l
  induction l with
  | nil =>
    intro tc
    exact ⟨0, Nat.le_refl _, rfl, by simp [allocGo], by intro m t h; simp at h⟩
  | cons message rest ih =>
    intro tc
    by_cases hc : tc + count message.content + 1000 > tokenLimit
    · refine ⟨0, Nat.zero_le _, ?_, ?_, ?_⟩
      · rw [allocGo_cons_pos count tokenLimit message rest tc hc]
        simp
      · rw [allocGo_cons_pos count tokenLimit message rest tc hc]
        simp
      · intro m t h
        simp only [List.drop_zero] at h
        injection h with h1 h2
        subst h1
        rw [allocGo_cons_pos count tokenLimit message rest tc hc]
        exact hc
    · obtain ⟨k, hk, hsel, hcount, hstop⟩ := ih (tc + count message.content)
      refine ⟨k + 1, by simpa using Nat.succ_le_succ hk, ?_, ?_, ?_⟩
      · rw [allocGo_cons_neg count tokenLimit message rest tc hc]
        simp [hsel]
      · rw [allocGo_cons_neg count tokenLimit message rest tc hc]
        simp [hcount, Nat.add_assoc]
      · intro m t h
        simp only [List.drop_succ_cons] at h
        rw [allocGo_cons_neg count tokenLimit message rest tc hc]
        exact hstop m t h

/-- Growth invariant of the selection loop: if the running count plus the
reserve is within the limit when the loop starts, it stays within the limit,
because a turn is only admitted after the check
`tokenCount + tokens + 1000 > tokenLimit` fails. -/
theorem allocGo_fst_le (count : String → Nat) (tokenLimit : Nat) :
    ∀ (l : List Message) (tc : Nat), tc + 1000 ≤ tokenLimit →
      (allocGo count tokenLimit l tc).1 + 1000 ≤ tokenLimit := by
  intro l
  induction l with
  | nil => intro tc h; exact h
  | cons message rest ih =>
    intro tc h
    by_cases hc : tc + count message.content + 1000 > tokenLimit
    · rw [allocGo_cons_pos count tokenLimit message rest tc hc]
      exact h
    · rw [allocGo_cons_neg count tokenLimit message rest tc hc]
      exact ih (tc + count message.content) (by omega)

/-- The deduplicated-suffix characterization of `budgetSelect`, at the level of
the original oldest-first `messages` list: the admitted turns are
`messages.drop dropped` for some `dropped`, the final token count is the prompt
count plus the admitted turns' counts, and when some turn was rejected the
newest rejected turn (`messages[dropped - 1]`) fails the budget check at the
final count. -/
theorem budgetSelect_spec (count : String → Nat) (tokenLimit : Nat)
    (messages : List Message) (promptTokens : Nat) :
    ∃ dropped, dropped ≤ messages.length ∧
      (budgetSelect count tokenLimit messages promptTokens).2 = messages.drop dropped ∧
      (budgetSelect count tokenLimit messages promptTokens).1 =
        promptTokens + ((messages.drop dropped).map (fun m => count m.content)).sum ∧
      (0 < dropped → ∃ m,
        messages.drop (dropped - 1) =
          m :: (budgetSelect count tokenLimit messages promptTokens).2 ∧
        (budgetSelect count tokenLimit messages promptTokens).1 +
          count m.content + 1000 > tokenLimit) := by
  obtain ⟨k, hk, hsel, hcount, hstop⟩ :=
    allocGo_spec count tokenLimit messages.reverse promptTokens
  have hlr : messages.reverse.length = messages.length := List.length_reverse _
  have hmsgs : messages =
      (messages.reverse.drop k).reverse ++ (messages.reverse.take k).reverse := by
    conv_lhs => rw [← List.reverse_reverse messages]
    rw [← List.reverse_append, List.take_append_drop]
  have hdroplen : ((messages.reverse.drop k).reverse).length = messages.length - k := by
    simp
  have hkey : (messages.reverse.take k).reverse = messages.drop (messages.length - k) := by
    have hdl := List.drop_left ((messages.reverse.drop k).reverse)
      ((messages.reverse.take k).reverse)
    rw [hdroplen, ← hmsgs] at hdl
    exact hdl.symm
  simp only [budgetSelect]
  refine ⟨messages.length - k, Nat.sub_le _ _, ?_, ?_, ?_⟩
  · rw [hsel, hkey]
  · rw [hcount, ← hkey]
    have : (((messages.reverse.take k).reverse).map (fun m => count m.content)).sum =
        ((messages.reverse.take k).map (fun m => count m.content)).sum := by
      rw [List.map_reverse, List.sum_reverse]
    rw [this]
  · intro hpos
    have hklt : k < messages.reverse.length := by omega
    have hdropk := List.drop_eq_getElem_cons hklt
    refine ⟨messages.reverse.get ⟨k, hklt⟩, ?_,
      hstop _ (messages.reverse.drop (k + 1)) hdropk⟩
    rw [hsel]
    have hmsgs2 : messages =
        (messages.reverse.drop (k + 1)).reverse ++
          (messages.reverse.get ⟨k, hklt⟩ :: (messages.reverse.take k).reverse) := by
      conv_lhs => rw [hmsgs]
      rw [hdropk]
      simp
    have hdl := List.drop_left ((messages.reverse.drop (k + 1)).reverse)
      (messages.reverse.get ⟨k, hklt⟩ :: (messages.reverse.take k).reverse)
    have hlen2 : ((messages.reverse.drop (k + 1)).reverse).length =
        messages.length - k - 1 := by
      simp
      omega
    rw [hlen2, ← hmsgs2] at hdl
    exact hdl

/-- C2: the turns admitted by the budget selection loop form a contiguous
newest-first suffix of the input history, returned in chronological
(oldest-first) order — they are `messages.drop dropped` for some `dropped` —
and when the walk rejected a turn, the newest rejected turn
(`messages[dropped - 1]`, the head of `messages.drop (dropped - 1)`) fails the
budget check at the final token count, so the loop stopped there and no older
turn was considered. -/
theorem budget_selection_contiguous_suffix (count : String → Nat) (tokenLimit : Nat)
    (messages : List Message) (promptTokens : Nat) :
    ∃ dropped, dropped ≤ messages.length ∧
      (budgetSelect count tokenLimit messages promptTokens).2 = messages.drop dropped ∧
      (0 < dropped → ∃ m,
        messages.drop (dropped - 1) =
          m :: (budgetSelect count tokenLimit messages promptTokens).2 ∧
        (budgetSelect count tokenLimit messages promptTokens).1 +
          count m.content + 1000 > tokenLimit) := by
  obtain ⟨dropped, h1, h2, _, h4⟩ := budgetSelect_spec count tokenLimit messages promptTokens
  exact ⟨dropped, h1, h2, h4⟩

/-- Witness for C2 at a concrete history: two turns, a budget that admits only
the newest one. -/
theorem budget_selection_contiguous_suffix_witness :
    ∃ dropped, dropped ≤ ([⟨"user", "aaaaaaaaaa"⟩, ⟨"assistant", "bb"⟩] : List Message).length ∧
      (budgetSelect (fun s => s.length) 1060
          [⟨"user", "aaaaaaaaaa"⟩, ⟨"assistant", "bb"⟩] 50).2 =
        ([⟨"user", "aaaaaaaaaa"⟩, ⟨"assistant", "bb"⟩] : List Message).drop dropped ∧
      (0 < dropped → ∃ m,
        ([⟨"user", "aaaaaaaaaa"⟩, ⟨"assistant", "bb"⟩] : List Message).drop (dropped - 1) =
          m :: (budgetSelect (fun s => s.length) 1060
              [⟨"user", "aaaaaaaaaa"⟩, ⟨"assistant", "bb"⟩] 50).2 ∧
        (budgetSelect (fun s => s.length) 1060
            [⟨"user", "aaaaaaaaaa"⟩, ⟨"assistant", "bb"⟩] 50).1 +
          (fun s => s.length) m.content + 1000 > 1060) :=
  budget_selection_contiguous_suffix (fun s => s.length) 1060
    [⟨"user", "aaaaaaaaaa"⟩, ⟨"assistant", "bb"⟩] 50

/-- C1 as stated is false: when the rendered prompt alone exceeds
`tokenLimit - 1000`, the loop admits nothing but `tokenCount` keeps the prompt
count, so `tokenCount + 1000 ≤ tokenLimit` fails after the loop.  Concretely,
one turn of 2 tokens, a prompt of 1500 tokens and a limit of 1000. -/
theorem budget_limit_claim_fails_on_large_prompt :
    ¬ ((budgetSelect (fun s => s.length) 1000 [⟨"user", "hi"⟩] 1500).1 + 1000 ≤ 1000) := by
  decide

/-- C1 (amended): whenever the rendered prompt itself fits the budget
(`promptTokens + 1000 ≤ tokenLimit`), the invariant claimed holds: after the
selection loop, `tokenCount + 1000 ≤ model.tokenLimit`, i.e. the prompt plus
all admitted turns stay within the limit minus the generation reserve. -/
theorem budget_allocator_respects_limit (count : String → Nat) (tokenLimit : Nat)
    (messages : List Message) (promptTokens : Nat)
    (h : promptTokens + 1000 ≤ tokenLimit) :
    (budgetSelect count tokenLimit messages promptTokens).1 + 1000 ≤ tokenLimit :=
  allocGo_fst_le count tokenLimit messages.reverse promptTokens h

/-- Witness for the amended C1 at a concrete history and budget. -/
theorem budget_allocator_respects_limit_witness :
    (budgetSelect (fun s => s.length) 2000
        [⟨"user", "hello"⟩, ⟨"assistant", "world"⟩] 100).1 + 1000 ≤ 2000 :=
  budget_allocator_respects_limit (fun s => s.length) 2000
    [⟨"user", "hello"⟩, ⟨"assistant", "world"⟩] 100 (by decide)

/-- C7: when the rendered prompt plus the 1000-token generation reserve already
exceeds the model's token limit, the budget check fails for the very first
(newest) turn whatever its size, so the loop admits no turn: the selection is
the empty sequence, the token count stays at the prompt count, and the
embedding is a total function, so no error is raised. -/
theorem budget_select_empty_when_prompt_overflows (count : String → Nat)
    (tokenLimit : Nat) (messages : List Message) (promptTokens : Nat)
    (h : promptTokens + 1000 > tokenLimit) :
    budgetSelect count tokenLimit messages promptTokens = (promptTokens, []) := by
  unfold budgetSelect
  cases hrev : messages.reverse with
  | nil => simp [allocGo]
  | cons m rest =>
    exact allocGo_cons_pos count tokenLimit m rest promptTokens (by omega)

/-- Witness for C7: a 5-token turn, a 500 limit and an 800-token prompt give
the empty selection without an error. -/
theorem budget_select_empty_when_prompt_overflows_witness :
    budgetSelect (fun s => s.length) 500 [⟨"user", "hello"⟩] 800 = (800, []) :=
  budget_select_empty_when_prompt_overflows (fun s => s.length) 500
    [⟨"user", "hello"⟩] 800 (by decide)

/-- A retrieval match's metadata, as read by the handler: the source `url`,
the chunk `text` kept for the full document, and the `chunk` identifier. -/
structure Match where
  url : String
  text : String
  chunk : String
deriving DecidableEq, Repr

/-- Insertion into a JS `Set` materialized as a list: a `Set` iterates in
insertion order and ignores re-insertions of a present element. -/
def setAdd (s : List String) (x : String) : List String :=
  if x ∈ s then s else s ++ [x]

/-- `Array.from(new Set(matches.map(match => match.metadata.url)))`: the list
of distinct source urls in first-occurrence order. -/
def urls (ms : List Match) : List String :=
  ms.foldl (fun s m => setAdd s m.url) []

/-- Body of the `matches.reduce((map, match) => ...)` building the url-keyed
`Map`: `if (!map.has(url)) map.set(url, text)`.  A JS `Map` keeps insertion
order and `set` on a fresh key appends, so the `Map` is materialized as an
entry list with distinct keys. -/
def dedupStep (map : List (String × String)) (m : Match) : List (String × String) :=
  if m.url ∈ map.map Prod.fst then map else map ++ [(m.url, m.text)]

/-- `Array.from(matches.reduce(..., new Map()))`: the deduplicated
url-to-first-text entries in insertion order. -/
def fullDocumentEntries (ms : List Match) : List (String × String) :=
  ms.foldl dedupStep []

/-- `.map(([_, text]) => text)`: the deduplicated document texts,
one per distinct url, in first-occurrence order. -/
def fullDocuments (ms : List Match) : List String :=
  (fullDocumentEntries ms).map Prod.snd

/-- `map.get(url)` on the materialized entry list. -/
def mapGet (map : List (String × String)) (u : String) : Option String :=
  (map.find? (fun p => p.1 == u)).map Prod.snd

/-- A `ContextDocument` (url plus its first-seen text) re-read as a match, to
feed the deduplicator its own output; deduplication never looks at `chunk`. -/
def entryToMatch (p : String × String) : Match :=
  ⟨p.1, p.2, ""⟩

theorem map_fst_dedupStep (acc : List (String × String)) (m : Match) :
    (dedupStep acc m).map Prod.fst = setAdd (acc.map Prod.fst) m.url := by
  unfold dedupStep setAdd
  by_cases h : m.url ∈ acc.map Prod.fst
  · rw [if_pos h, if_pos h]
  · rw [if_neg h, if_neg h]
    simp

theorem map_fst_foldl_dedupStep :
    ∀ (ms : List Match) (acc : List (String × String)),
      (ms.foldl dedupStep acc).map Prod.fst =
        ms.foldl (fun s m => setAdd s m.url) (acc.map Prod.fst) := by
  intro ms
  induction ms with
  | nil => intro acc; rfl
  | cons m rest ih =>
    intro acc
    simp only [List.foldl_cons]
    rw [ih (dedupStep acc m), map_fst_dedupStep]

theorem nodup_foldl_setAdd :
    ∀ (us : List String) (s : List String), s.Nodup →
      (us.foldl setAdd s).Nodup := by
  intro us
  induction us with
  | nil => intro s h; exact h
  | cons u rest ih =>
    intro s h
    simp only [List.foldl_cons]
    apply ih
    unfold setAdd
    by_cases hm : u ∈ s
    · rw [if_pos hm]; exact h
    · rw [if_neg hm]
      simpa [List.nodup_append] using ⟨h, hm⟩

theorem find?_eq_none_of_not_mem_keys (acc : List (String × String)) (u : String)
    (h : u ∉ acc.map Prod.fst) : acc.find? (fun p => p.1 == u) = none := by
  rw [List.find?_eq_none]
  intro p hp hpe
  exact h (List.mem_map.mpr ⟨p, hp, by simpa using hpe⟩)

theorem mapGet_foldl_stable (u : String) :
    ∀ (ms : List Match) (acc : List (String × String)),
      u ∈ acc.map Prod.fst →
      mapGet (ms.foldl dedupStep acc) u = mapGet acc u := by
  intro ms
  induction ms with
  | nil => intro acc _; rfl
  | cons m rest ih =>
    intro acc hmem
    simp only [List.foldl_cons]
    have hkeys : u ∈ (dedupStep acc m).map Prod.fst := by
      rw [map_fst_dedupStep]
      unfold setAdd
      by_cases hm : m.url ∈ acc.map Prod.fst
      · rw [if_pos hm]; exact hmem
      · rw [if_neg hm]
        exact List.mem_append.mpr (Or.inl hmem)
    rw [ih (dedupStep acc m) hkeys]
    unfold dedupStep
    by_cases hm : m.url ∈ acc.map Prod.fst
    · rw [if_pos hm]
    · rw [if_neg hm]
      unfold mapGet
      have hfind : acc.find? (fun p => p.1 == u) ≠ none := by
        intro hnone
        obtain ⟨p, hp, hpu⟩ := List.mem_map.mp hmem
        have := (List.find?_eq_none.mp hnone) p hp
        simp [hpu] at this
      obtain ⟨v, hv⟩ := Option.ne_none_iff_exists'.mp hfind
      rw [List.find?_append, hv]
      rfl

/-- First-seen text wins: looking up any url in the deduplicated `Map` built
from an accumulator not containing it returns the text of the first match in
the remaining list bearing that url. -/
theorem mapGet_foldl_dedupStep (u : String) :
    ∀ (ms : List Match) (acc : List (String × String)),
      u ∉ acc.map Prod.fst →
      mapGet (ms.foldl dedupStep acc) u =
        (ms.find? (fun x => x.url == u)).map Match.text := by
  intro ms
  induction ms with
  | nil =>
    intro acc h
    unfold mapGet
    simp only [List.foldl_nil]
    rw [find?_eq_none_of_not_mem_keys acc u h]
    rfl
  | cons m rest ih =>
    intro acc h
    simp only [List.foldl_cons]
    by_cases hmu : m.url = u
    · subst hmu
      have hnot : m.url ∉ acc.map Prod.fst := h
      rw [List.find?_cons]
      simp only [beq_self_eq_true, if_pos]
      have hkeys : m.url ∈ (dedupStep acc m).map Prod.fst := by
        rw [map_fst_dedupStep]
        unfold setAdd
        rw [if_neg hnot]
        simp
      rw [mapGet_foldl_stable m.url rest (dedupStep acc m) hkeys]
      unfold dedupStep
      rw [if_neg hnot]
      unfold mapGet
      rw [List.find?_append, find?_eq_none_of_not_mem_keys acc m.url hnot]
      simp [List.find?_cons]
    · have hkeep : u ∉ (dedupStep acc m).map Prod.fst := by
        rw [map_fst_dedupStep]
        unfold setAdd
        by_cases hm : m.url ∈ acc.map Prod.fst
        · rw [if_pos hm]; exact h
        · rw [if_neg hm]
          intro hc
          rcases List.mem_append.mp hc with hc | hc
          · exact h hc
          · simp at hc
            exact hmu hc.symm
      rw [ih (dedupStep acc m) hkeep, List.find?_cons]
      have hb : (m.url == u) = false := by
        simp [hmu]
      rw [hb]

theorem foldl_setAdd_fresh :
    ∀ (l s : List String), (∀ x ∈ l, x ∉ s) → l.Nodup →
      l.foldl setAdd s = s ++ l := by
  intro l
  induction l with
  | nil => intro s _ _; simp
  | cons x rest ih =>
    intro s hfresh hnd
    simp only [List.foldl_cons]
    have hx : x ∉ s := hfresh x (by simp)
    have hstep : setAdd s x = s ++ [x] := by
      unfold setAdd
      rw [if_neg hx]
    rw [hstep, ih (s ++ [x]) ?_ (List.Nodup.of_cons hnd)]
    · simp
    · intro q hq hqmem
      rcases List.mem_append.mp hqmem with hc | hc
      · exact hfresh q (by simp [hq]) hc
      · simp at hc
        subst hc
        exact (List.nodup_cons.mp hnd).1 hq

theorem foldl_dedupStep_fresh :
    ∀ (l acc : List (String × String)),
      (∀ p ∈ l, p.1 ∉ acc.map Prod.fst) → (l.map Prod.fst).Nodup →
      (l.map entryToMatch).foldl dedupStep acc = acc ++ l := by
  intro l
  induction l with
  | nil => intro acc _ _; simp
  | cons p rest ih =>
    intro acc hfresh hnd
    simp only [List.map_cons, List.foldl_cons]
    have hp : p.1 ∉ acc.map Prod.fst := hfresh p (by simp)
    have hstep : dedupStep acc (entryToMatch p) = acc ++ [p] := by
      unfold dedupStep entryToMatch
      rw [if_neg hp]
    rw [hstep, ih (acc ++ [p]) ?_ ?_]
    · simp
    · intro q hq hqmem
      simp only [List.map_append, List.mem_append] at hqmem
      rw [List.map_cons] at hnd
      have hhd : p.1 ∉ rest.map Prod.fst := (List.nodup_cons.mp hnd).1
      rcases hqmem with hc | hc
      · exact hfresh q (by simp [hq]) hc
      · simp at hc
        have hmem : p.1 ∈ rest.map Prod.fst := by
          rw [← hc]
          exact List.mem_map.mpr ⟨q, hq, rfl⟩
        exact hhd hmem
    · rw [List.map_cons] at hnd
      exact (List.nodup_cons.mp hnd).2

theorem urls_eq_foldl_map (ms : List Match) :
    urls ms = (ms.map Match.url).foldl setAdd [] := by
  unfold urls
  rw [List.foldl_map]

/-- C4: the Context Deduplicator applied to any match sequence produces exactly
one document entry per distinct url (the entry keys are the distinct urls,
without duplicates, in first-occurrence order and identical to the `urls`
list), keeps the first-seen chunk's text for every url, maps empty input to
empty output, and is idempotent: re-deduplicating the deduplicated documents
is a no-op, on both the documents and the url list. -/
theorem context_deduplicator_correct :
    (fullDocumentEntries [] = [] ∧ urls ([] : List Match) = []) ∧
    (∀ ms : List Match, (fullDocumentEntries ms).map Prod.fst = urls ms) ∧
    (∀ ms : List Match, (urls ms).Nodup) ∧
    (∀ (ms : List Match) (u : String),
      mapGet (fullDocumentEntries ms) u =
        (ms.find? (fun x => x.url == u)).map Match.text) ∧
    (∀ ms : List Match,
      fullDocumentEntries ((fullDocumentEntries ms).map entryToMatch) =
        fullDocumentEntries ms) ∧
    (∀ ms : List Match,
      urls ((fullDocumentEntries ms).map entryToMatch) = urls ms) := by
  have hb : ∀ ms : List Match, (fullDocumentEntries ms).map Prod.fst = urls ms := by
    intro ms
    unfold fullDocumentEntries urls
    simpa using map_fst_foldl_dedupStep ms []
  have hc : ∀ ms : List Match, (urls ms).Nodup := by
    intro ms
    rw [urls_eq_foldl_map]
    exact nodup_foldl_setAdd (ms.map Match.url) [] List.nodup_nil
  refine ⟨⟨rfl, rfl⟩, hb, hc, ?_, ?_, ?_⟩
  · intro ms u
    unfold fullDocumentEntries
    exact mapGet_foldl_dedupStep u ms [] (by simp)
  · intro ms
    have hnd : ((fullDocumentEntries ms).map Prod.fst).Nodup := by
      rw [hb ms]; exact hc ms
    unfold fullDocumentEntries
    rw [foldl_dedupStep_fresh (ms.foldl dedupStep []) [] (by simp) (by simpa [fullDocumentEntries] using hnd)]
    simp
  · intro ms
    rw [urls_eq_foldl_map]
    have hcomp : ((fullDocumentEntries ms).map entryToMatch).map Match.url =
        (fullDocumentEntries ms).map Prod.fst := by
      rw [List.map_map]
      rfl
    rw [hcomp]
    have hnd : ((fullDocumentEntries ms).map Prod.fst).Nodup := by
      rw [hb ms]; exact hc ms
    rw [foldl_setAdd_fresh ((fullDocumentEntries ms).map Prod.fst) [] (by simp) hnd]
    rw [List.nil_append]
    exact hb ms

/-- The `documentTokens` accumulation in the handler:
`for (let doc of fullDocuments) { documentTokens += encoding.encode(doc).length; }`. -/
def documentTokens (count : String → Nat) (docs : List String) : Nat :=
  docs.foldl (fun acc doc => acc + count doc) 0

/-- How many times the handler's threshold branch
`if (documentTokens > 14000) { const summary = await summarizeLongDocument(...); }`
invokes the summarization oracle. -/
def summarizerInvocations (count : String → Nat) (docs : List String) : Nat :=
  if documentTokens count docs > 14000 then 1 else 0

/-- The `summaries` value the handler passes to `promptQA.format`.  In the
source, the threshold branch binds `const summary = await
summarizeLongDocument(fullDocuments!.join('\n'), question, ...)` but the
subsequent `promptQA.format({ summaries: fullDocuments!.join('\n'), ... })`
uses the raw join on both sides of the threshold; the `summary` binding is
never read. -/
def summariesArgument (summarize : String → String → String)
    (count : String → Nat) (docs : List String) (question : String) : String :=
  let joined := String.intercalate "\n" docs
  if documentTokens count docs > 14000 then
    let _summary := summarize joined question
    joined
  else
    joined

/-- C3 fails on the code: with a tokenizer counting 15000 tokens for the lone
document (above the 14000 threshold), the handler does invoke the
summarization oracle exactly once, yet the text passed downstream as
`summaries` is still the raw concatenation, not the oracle's output. -/
theorem summarizer_output_discarded :
    summarizerInvocations (fun _ => 15000) ["DOC"] = 1 ∧
    summariesArgument (fun _ _ => "ORACLE SUMMARY") (fun _ => 15000) ["DOC"] "question" = "DOC" ∧
    "DOC" ≠ "ORACLE SUMMARY" := by
  refine ⟨rfl, rfl, by decide⟩

/-- Events of one handler run, in program order. -/
inductive Ev
  | encodingInit
  | embed
  | retrieve
  | summarize
  | format
  | free
  | generate
deriving DecidableEq, Repr

/-- The error taxonomy relevant to the handler's failure ordering. -/
inductive HandlerError
  | unsupportedModel
  | retrievalUnavailable
  | oracleFailure
deriving DecidableEq, Repr

/-- One pipeline stage: the event it performs, and the error the underlying
call throws when it fails (`none` when it succeeds). -/
structure Stage where
  ev : Ev
  err : Option HandlerError
deriving DecidableEq, Repr

/-- Run stages in program order.  A stage that throws stops execution — the
error propagates to the handler's `catch` — so later stages never run; the
throwing stage itself is recorded as attempted. -/
def runStages : List Stage → List Ev × Option HandlerError
  | [] => ([], none)
  | s :: rest =>
    match s.err with
    | some e => ([s.ev], some e)
    | none =>
      let r := runStages rest
      (s.ev :: r.1, r.2)

/-- The chat handler's effectful steps in source order: `encoding_for_model`
(which throws for a model id with no registered codec), `embedQuery`,
`getMatchesFromEmbeddings`, the conditional `summarizeLongDocument` call,
`promptQA.format`, the codec release `encoding.free()` placed after the
selection loop, and the generation call.  `registered` stands for the tiktoken
codec registry; the `Option HandlerError` parameters give the outcomes of the
external calls; `needSummary` is the `documentTokens > 14000` test. -/
def chatStages (registered : List String) (modelId : String)
    (embedErr retrieveErr summarizeErr formatErr generateErr : Option HandlerError)
    (needSummary : Bool) : List Stage :=
  ⟨Ev.encodingInit,
    if modelId ∈ registered then none else some HandlerError.unsupportedModel⟩ ::
  ⟨Ev.embed, embedErr⟩ ::
  ⟨Ev.retrieve, retrieveErr⟩ ::
  ((if needSummary then [⟨Ev.summarize, summarizeErr⟩] else []) ++
   [⟨Ev.format, formatErr⟩, ⟨Ev.free, none⟩, ⟨Ev.generate, generateErr⟩])

/-- C5: a request naming a model id with no registered codec makes the handler
fail with UnsupportedModelError at tokenizer initialization, and no retrieval
call against the vector index is ever executed, whatever the outcomes of the
later stages would have been. -/
theorem unsupported_model_fails_before_retrieval (registered : List String)
    (modelId : String)
    (embedErr retrieveErr summarizeErr formatErr generateErr : Option HandlerError)
    (needSummary : Bool) (h : modelId ∉ registered) :
    (runStages (chatStages registered modelId embedErr retrieveErr summarizeErr
        formatErr generateErr needSummary)).2 = some HandlerError.unsupportedModel ∧
    Ev.retrieve ∉ (runStages (chatStages registered modelId embedErr retrieveErr
        summarizeErr formatErr generateErr needSummary)).1 := by
  simp [chatStages, runStages, h]

/-- Witness for C5: the model id "not-a-model" against a registry containing
only "gpt-3.5-turbo". -/
theorem unsupported_model_fails_before_retrieval_witness :
    (runStages (chatStages ["gpt-3.5-turbo"] "not-a-model" none none none none
        none false)).2 = some HandlerError.unsupportedModel ∧
    Ev.retrieve ∉ (runStages (chatStages ["gpt-3.5-turbo"] "not-a-model" none
        none none none none false)).1 :=
  unsupported_model_fails_before_retrieval ["gpt-3.5-turbo"] "not-a-model"
    none none none none none false (by decide)

/-- C8 fails on the code: `encoding.free()` has no `finally`; on a run whose
retrieval call throws after the codec was acquired, the release never
executes. -/
theorem codec_not_freed_on_retrieval_error :
    Ev.free ∉ (runStages (chatStages ["gpt-3.5-turbo"] "gpt-3.5-turbo" none
        (some HandlerError.retrievalUnavailable) none none none false)).1 := by
  decide

/-- C8 (amended): the codec release runs exactly once on every run that
reaches the end of the selection loop — in particular a later generation
error still sees the codec released — but a run that throws after codec
acquisition and before the end of the loop (unregistered model is thrown at
acquisition itself; embedding, retrieval, summarization or formatting errors
afterwards) exits without releasing it. -/
theorem codec_release_characterization (registered : List String) (modelId : String)
    (embedErr retrieveErr summarizeErr formatErr generateErr : Option HandlerError)
    (needSummary : Bool) :
    (runStages (chatStages registered modelId embedErr retrieveErr summarizeErr
        formatErr generateErr needSummary)).1.count Ev.free =
      (if modelId ∈ registered ∧ embedErr = none ∧ retrieveErr = none ∧
          (¬ needSummary = true ∨ summarizeErr = none) ∧ formatErr = none
        then 1 else 0) := by
  by_cases hm : modelId ∈ registered <;>
    cases embedErr <;> cases retrieveErr <;> cases summarizeErr <;>
    cases formatErr <;> cases generateErr <;> cases needSummary <;>
    simp [chatStages, runStages, hm]

/-- Response-side state of the Node streaming relay: the chunks written so far
through `res.write`, and how many times `res.end()` has been called. -/
structure ResState where
  written : List String
  ended : Nat
deriving DecidableEq, Repr

/-- The relay loop of the handler:

```js
const readAndWrite = async () => {
  const { value, done } = await reader.read();
  if (done) { res.end(); return; }
  res.write(value);
  readAndWrite();
};
```

The producer stream is modelled by the list of chunks it yields before the
reader reports `done`. -/
def readAndWrite (stream : List String) (res : ResState) : ResState :=
  match stream with
  | [] => { res with ended := res.ended + 1 }
  | value :: rest => readAndWrite rest { res with written := res.written ++ [value] }

theorem readAndWrite_run :
    ∀ (stream : List String) (res : ResState),
      readAndWrite stream res = ⟨res.written ++ stream, res.ended + 1⟩ := by
  intro stream
  induction stream with
  | nil => intro res; simp [readAndWrite]
  | cons value rest ih =>
    intro res
    simp [readAndWrite, ih]

/-- C6: starting from a fresh response, the relay writes exactly the
producer's chunks, in the order received — no duplication, no drops, no
reordering — and finalizes the response exactly once, when the producer
signals end-of-stream. -/
theorem streaming_relay_order_preserving (stream : List String) :
    readAndWrite stream ⟨[], 0⟩ = ⟨stream, 1⟩ := by
  rw [readAndWrite_run]
  simp

/-- The temperature defaulting of the handler:

```js
let temperatureToUse = temperature;
if (temperatureToUse == null) {
  temperatureToUse = DEFAULT_TEMPERATURE;
}
```

A nullable request field is an `Option` (`== null` matches both `null` and
`undefined`).  `DEFAULT_TEMPERATURE` lives in `@/utils/app/const`, outside the
given sources, so its value is a parameter.  This value is what the handler
then passes as the third argument of
`OpenAIStream(model, promptToSend, temperatureToUse, key, messagesToSend)`. -/
def temperatureToUse (DEFAULT_TEMPERATURE : ℚ) (temperature : Option ℚ) : ℚ :=
  match temperature with
  | none => DEFAULT_TEMPERATURE
  | some t => t

/-- C9: the effective temperature is the request's temperature when present
and the default when the request's field is null or undefined; by totality of
the two cases no other value is ever substituted. -/
theorem temperature_defaulting (d : ℚ) :
    (∀ t : ℚ, temperatureToUse d (some t) = t) ∧ temperatureToUse d none = d :=
  ⟨fun _ => rfl, rfl⟩

/-- The variable set the handler passes to `promptQA.format`. -/
structure PromptVars where
  summaries : String
  question : String
  conversationHistory : List String
  urls : List String
deriving DecidableEq, Repr

/-- The call `promptQA.format({ summaries: summary, question: prompt,
conversationHistory: messages.map(m => m.content), urls })`: the
`conversationHistory` variable is built from the full `messages` array, not
from the budget-admitted suffix. -/
def promptFormatArgs (summary : String) (prompt : String)
    (messages : List Message) (us : List String) : PromptVars :=
  { summaries := summary
    question := prompt
    conversationHistory := messages.map (fun m => m.content)
    urls := us }

/-- What the handler hands to the generation call: `promptToSend`, rendered by
the external template engine from the full history before the selection loop
runs, and `messagesToSend`, the loop's selection seeded with `promptToSend`'s
token count. -/
def promptAndSelection (render : PromptVars → String) (count : String → Nat)
    (tokenLimit : Nat) (summary prompt : String) (messages : List Message)
    (us : List String) : String × List Message :=
  let promptToSend := render (promptFormatArgs summary prompt messages us)
  (promptToSend, (budgetSelect count tokenLimit messages (count promptToSend)).2)

/-- C10: the prompt sent to the generation oracle is rendered from the content
of every message of the conversation history — `conversationHistory` is
exactly `messages.map(m => m.content)`, so each message's content is embedded
— while the budget selection only constrains the separately passed
`messagesToSend`; the rendered prompt does not depend on the model's token
limit, so its size is not bounded by the budget selection. -/
theorem prompt_embeds_full_history (render : PromptVars → String)
    (count : String → Nat) (summary prompt : String) (messages : List Message)
    (us : List String) :
    (promptFormatArgs summary prompt messages us).conversationHistory =
      messages.map (fun m => m.content) ∧
    (∀ m, m ∈ messages →
      m.content ∈ (promptFormatArgs summary prompt messages us).conversationHistory) ∧
    (∀ tokenLimit tokenLimit' : Nat,
      (promptAndSelection render count tokenLimit summary prompt messages us).1 =
        (promptAndSelection render count tokenLimit' summary prompt messages us).1) := by
  refine ⟨rfl, ?_, fun _ _ => rfl⟩
  intro m hm
  exact List.mem_map.mpr ⟨m, hm, rfl⟩

/-- Witness for C10: a concrete two-turn history; the oldest turn's content is
embedded in the prompt variables even under a tiny token limit. -/
theorem prompt_embeds_full_history_witness :
    (promptFormatArgs "S" "Q" [⟨"user", "old"⟩, ⟨"user", "new"⟩] ["u"]).conversationHistory =
      ([⟨"user", "old"⟩, ⟨"user", "new"⟩] : List Message).map (fun m => m.content) ∧
    (∀ m, m ∈ ([⟨"user", "old"⟩, ⟨"user", "new"⟩] : List Message) →
      m.content ∈ (promptFormatArgs "S" "Q" [⟨"user", "old"⟩, ⟨"user", "new"⟩]
          ["u"]).conversationHistory) ∧
    (∀ tokenLimit tokenLimit' : Nat,
      (promptAndSelection (fun v => String.intercalate "," v.conversationHistory)
          (fun s => s.length) tokenLimit "S" "Q"
          [⟨"user", "old"⟩, ⟨"user", "new"⟩] ["u"]).1 =
        (promptAndSelection (fun v => String.intercalate "," v.conversationHistory)
          (fun s => s.length) tokenLimit' "S" "Q"
          [⟨"user", "old"⟩, ⟨"user", "new"⟩] ["u"]).1) :=
  prompt_embeds_full_history (fun v => String.intercalate "," v.conversationHistory)
    (fun s => s.length) "S" "Q" [⟨"user", "old"⟩, ⟨"user", "new"⟩] ["u"]
